import Mathlib

/-!
Shallow embedding of the pop-launcher DuckDuckGo-bangs plugin core
(`src/main.rs`, `src/config.rs`): the bang record and its derived ordering,
catalog loading (sort and optional URL dedup), the lowercase search cache,
query tokenization, and the three session event handlers (`search`,
`complete`, `activate`).  I/O concerns (finding/downloading the database
file, JSON (de)serialization, stdin/stdout framing, `xdg-open`) are outside
the embedding: handlers return the plugin responses they would emit, and
`activate` additionally returns the list of URLs it would open.
-/

namespace Bangs

/-- Models `PLUGIN_PREFIX` in `main.rs`: the prefix activating the plugin. -/
def PLUGIN_PREFIX : String := "!"

/-- Models `BANG_INDICATOR` in `main.rs`: the prefix of an inline bang token. -/
def BANG_INDICATOR : String := "!"

/-- Models `BANGS_PLACEHOLDER` in `main.rs`: the placeholder replaced by the
encoded query inside a bang URL (the literal three-brace `s` marker). -/
def BANGS_PLACEHOLDER : String := "\x7b\x7b\x7bs\x7d\x7d\x7d"

/-- Models `BangMetadata` in `config.rs`; field order matters because the
derived Rust `Ord` compares fields in declaration order. -/
structure BangMetadata where
  netloc : String
  hostname : Option String
  favicon : Option String
  scheme : String
  path : String
deriving DecidableEq

/-- Models `Bang` in `config.rs`; field order matters because the derived
Rust `Ord` compares fields in declaration order. -/
structure Bang where
  trigger : String
  url : String
  metadata : BangMetadata
  title : String
  category : String
  sub_category : String
deriving DecidableEq

theorem optCompare_symm (x y : Option String) : (compare x y).swap = compare y x := by
  cases x with
  | none => cases y <;> rfl
  | some a =>
    cases y with
    | none => rfl
    | some b => exact (Batteries.OrientedCmp.symm a b : (compare a b).swap = compare b a)

theorem optCompare_le_trans {x y z : Option String} (h1 : compare x y ≠ Ordering.gt)
    (h2 : compare y z ≠ Ordering.gt) : compare x z ≠ Ordering.gt := by
  cases x with
  | none => cases z <;> exact fun h => nomatch h
  | some a =>
    cases y with
    | none => exact (h1 rfl).elim
    | some b =>
      cases z with
      | none => exact (h2 rfl).elim
      | some c =>
        exact (Batteries.TransCmp.le_trans
          (h1 : compare a b ≠ Ordering.gt) (h2 : compare b c ≠ Ordering.gt) :
          compare a c ≠ Ordering.gt)

/-- Rust's derived `Ord` for `Option<String>` orders `None` below `Some`,
which is exactly the behaviour of the `Ord (Option String)` instance used
here; this registers its lawfulness for the lexicographic machinery. -/
instance : Batteries.TransOrd (Option String) where
  symm := optCompare_symm
  le_trans := optCompare_le_trans

/-- Models the derived `Ord` of `BangMetadata`: lexicographic over the
fields in declaration order, strings compared lexicographically. -/
def cmpMeta : BangMetadata → BangMetadata → Ordering :=
  compareLex (compareOn (fun m => m.netloc))
    (compareLex (compareOn (fun m => m.hostname))
      (compareLex (compareOn (fun m => m.favicon))
        (compareLex (compareOn (fun m => m.scheme))
          (compareOn (fun m => m.path)))))

instance : Ord BangMetadata := ⟨cmpMeta⟩

instance cmpMetaTrans : Batteries.TransCmp cmpMeta := by
  unfold cmpMeta; infer_instance

instance : Batteries.TransOrd BangMetadata := cmpMetaTrans

/-- Models the derived `Ord` of `Bang` (`config.rs`): lexicographic over
`trigger`, `url`, `metadata`, `title`, `category`, `sub_category`. -/
def cmpBang : Bang → Bang → Ordering :=
  compareLex (compareOn (fun b => b.trigger))
    (compareLex (compareOn (fun b => b.url))
      (compareLex (compareOn (fun b => b.metadata))
        (compareLex (compareOn (fun b => b.title))
          (compareLex (compareOn (fun b => b.category))
            (compareOn (fun b => b.sub_category))))))

instance cmpBangTrans : Batteries.TransCmp cmpBang := by
  unfold cmpBang; infer_instance

/-- The sort relation realized by `db.data.sort_by(|a, b| b.partial_cmp(a).unwrap())`
in `Database::load` (`config.rs`): `a` precedes `b` when `b` does not exceed
`a` under the derived ordering, i.e. descending order. -/
def bangGe (a b : Bang) : Prop := cmpBang b a ≠ Ordering.gt

instance : DecidableRel bangGe := fun a b => by unfold bangGe; infer_instance

instance : IsTotal Bang bangGe where
  total a b := by
    rcases h : cmpBang b a with _ | _ | _
    · exact Or.inl (by simp [bangGe, h])
    · exact Or.inl (by simp [bangGe, h])
    · have hl : cmpBang a b = Ordering.lt := Batteries.OrientedCmp.cmp_eq_gt.mp h
      exact Or.inr (by simp [bangGe, hl])

instance : IsTrans Bang bangGe where
  trans _ _ _ h1 h2 := Batteries.TransCmp.le_trans h2 h1

/-- Models the sort in `Database::load` (`config.rs`):
`db.data.sort_by(|a, b| b.partial_cmp(a).unwrap())`.  Rust's `sort_by` is a
stable sort, ascending under the reversed comparator, i.e. the stable
descending sort of the derived order; `insertionSort` with the total
transitive preorder `bangGe` is stable and therefore produces the same
list. -/
def sortBangs (l : List Bang) : List Bang := List.insertionSort bangGe l

/-- Models the dedup pass in `App::default` (`main.rs`):
`let mut urls: HashSet<String> = HashSet::new(); db.retain(move |b| urls.insert(b.url.clone()))`.
`Vec::retain` visits elements in order and keeps an element exactly when its
URL was not seen before; the `HashSet` is modelled by the list of seen URLs. -/
def dedupAux (seen : List String) : List Bang → List Bang
  | [] => []
  | b :: rest =>
    if b.url ∈ seen then dedupAux seen rest
    else b :: dedupAux (b.url :: seen) rest

/-- The whole dedup pass, starting from an empty seen set. -/
def dedupByUrl (l : List Bang) : List Bang := dedupAux [] l

/-- Models `Bang::format` (`config.rs`): trigger, title, category,
sub-category and netloc joined by single spaces. -/
def bangFormat (b : Bang) : String :=
  b.trigger ++ " " ++ b.title ++ " " ++ b.category ++ " " ++ b.sub_category
    ++ " " ++ b.metadata.netloc

/-- Models `Bang::name` (`config.rs`). -/
def bangName (b : Bang) : String :=
  b.trigger ++ " | " ++ b.title ++ " (" ++ b.metadata.netloc ++ ")"

/-- Models `Bang::description` (`config.rs`). -/
def bangDescription (b : Bang) : String :=
  b.category ++ " > " ++ b.sub_category

/-- Models Rust `str::to_lowercase` restricted to its ASCII action
(`Char.toLower` lowers only `A`..`Z`); both the cache text and the query are
lowered with this same function, as in the source. -/
def lowerStr (s : String) : String := String.mk (s.data.map Char.toLower)

/-- Models the cache generation in `App::default` (`main.rs`):
`cache.push((bang.trigger.clone(), bang.format().to_lowercase()))` for each
database entry in order. -/
def mkCache (db : List Bang) : List (String × String) :=
  db.map (fun b => (b.trigger, lowerStr (bangFormat b)))

/-- Models `Database::get` (`config.rs`): the first entry whose trigger
equals the given trigger, if any. -/
def dbGet (db : List Bang) (trigger : String) : Option Bang :=
  db.find? (fun b => b.trigger == trigger)

/-- Models `AppConfig` (`config.rs`); `force_download` only affects the
database download path, which is outside the embedding. -/
structure AppConfig where
  db_url : String
  max_limit : Nat
  default_bangs : List String
  unique_bangs : Bool
deriving DecidableEq

/-- Models the plugin response constructors of `pop_launcher` used by the
program: `Append` (with the fields the program sets), `Fill`, `Close`,
`Finished`. -/
inductive PluginResponse where
  | append (id : Nat) (name description : String)
  | fill (text : String)
  | close
  | finished
deriving DecidableEq

/-- Models `App` (`main.rs`).  The `results: HashMap<u32, String>` is
modelled as an association list with distinct keys (the program only ever
stores the sequential ids of one request). -/
structure App where
  config : AppConfig
  db : List Bang
  cache : List (String × String)
  search : List String
  results : List (Nat × String)
deriving DecidableEq

/-- Models the pure tail of `App::default` (`main.rs`) given the parsed raw
records (file discovery, download and JSON parsing are external): load the
database (which sorts, `Database::load`), generate the cache from it, then
run the dedup pass when `unique_bangs` is set.  Note the source builds the
cache from the database *before* the dedup pass shrinks it. -/
def appInit (config : AppConfig) (raw : List Bang) : App :=
  let db0 := sortBangs raw
  let cache := mkCache db0
  let db := if config.unique_bangs then dedupByUrl db0 else db0
  { config := config, db := db, cache := cache, search := [], results := [] }

/-- Models `str::strip_prefix`: `some` of the remainder when the pattern is
a prefix, `none` otherwise. -/
def stripPfx : List Char → List Char → Option (List Char)
  | [], s => some s
  | _ :: _, [] => none
  | p :: ps, c :: cs => if p = c then stripPfx ps cs else none

/-- Models Rust `char::is_whitespace`: the Unicode `White_Space` property. -/
def rustWs (c : Char) : Bool :=
  c.val == 0x09 || c.val == 0x0A || c.val == 0x0B || c.val == 0x0C ||
  c.val == 0x0D || c.val == 0x20 || c.val == 0x85 || c.val == 0xA0 ||
  c.val == 0x1680 || (0x2000 ≤ c.val && c.val ≤ 0x200A) ||
  c.val == 0x2028 || c.val == 0x2029 || c.val == 0x202F ||
  c.val == 0x205F || c.val == 0x3000

/-- Helper for `splitWs`: `acc` holds the (reversed) characters of the token
currently being read. -/
def splitWsAux : List Char → List Char → List (List Char)
  | acc, [] => if acc.isEmpty then [] else [acc.reverse]
  | acc, c :: rest =>
    if rustWs c then
      if acc.isEmpty then splitWsAux [] rest
      else acc.reverse :: splitWsAux [] rest
    else splitWsAux (c :: acc) rest

/-- Models Rust `str::split_whitespace`: split on runs of whitespace,
dropping empty tokens. -/
def splitWs (s : List Char) : List (List Char) := splitWsAux [] s

/-- The tokenizer as used in `App::search` (`main.rs`):
`search.split_whitespace().map(|q| q.to_string()).collect()`. -/
def parseTokens (raw : String) : List String :=
  (splitWs raw.data).map String.mk

/-- Models `Vec::join(" ")` / joining tokens by single spaces. -/
def joinSpace : List String → String
  | [] => ""
  | [s] => s
  | s :: ss => s ++ " " ++ joinSpace ss

/-- Models Rust `str::contains` for string patterns: the needle occurs as a
contiguous substring. -/
def containsSub (needle : List Char) : List Char → Bool
  | [] => needle.isEmpty
  | c :: rest => needle.isPrefixOf (c :: rest) || containsSub needle rest

/-- Uppercase hexadecimal digit, as produced by the `urlencoding` crate. -/
def hexDigit (n : Nat) : Char :=
  if n < 10 then Char.ofNat (48 + n) else Char.ofNat (55 + n)

/-- Models the `urlencoding` crate's per-byte rule: ASCII alphanumerics and
`-`, `_`, `.`, `~` pass through; every other byte is percent-encoded. -/
def encodeByte (b : UInt8) : List Char :=
  let n := b.toNat
  if (65 ≤ n ∧ n ≤ 90) ∨ (97 ≤ n ∧ n ≤ 122) ∨ (48 ≤ n ∧ n ≤ 57) ∨
      n = 45 ∨ n = 95 ∨ n = 46 ∨ n = 126 then
    [Char.ofNat n]
  else
    ['%', hexDigit (n / 16), hexDigit (n % 16)]

/-- Models `urlencoding::encode` applied to a string: percent-encode the
UTF-8 bytes of every character. -/
def urlencode (s : String) : String :=
  String.mk (s.data.flatMap (fun c => (String.utf8EncodeChar c).flatMap encodeByte))

/-- Models Rust `str::replace` for a non-empty pattern: replace every
non-overlapping occurrence, scanning left to right.  The only pattern the
program uses is the non-empty `BANGS_PLACEHOLDER`, so the empty-pattern
behaviour of `str::replace` is not modelled. -/
def replaceAll (pat rep : List Char) : List Char → List Char
  | [] => []
  | c :: rest =>
    if pat.isPrefixOf (c :: rest) && !pat.isEmpty then
      rep ++ replaceAll pat rep (rest.drop (pat.length - 1))
    else
      c :: replaceAll pat rep rest
termination_by s => s.length
decreasing_by
  · simp only [List.length_cons]
    have := List.length_drop (pat.length - 1) rest
    omega
  · simp

/-- Models `App::get_search_query` (`main.rs`): tokens not starting with the
bang indicator, joined by single spaces. -/
def getSearchQuery (app : App) : String :=
  joinSpace (app.search.filter (fun q => !(BANG_INDICATOR.data.isPrefixOf q.data)))

/-- Models `App::get_bangs_from_search_query` (`main.rs`): the tokens that
start with the bang indicator, with the indicator stripped. -/
def getBangsFromSearchQuery (app : App) : List String :=
  app.search.filterMap (fun q => (stripPfx BANG_INDICATOR.data q.data).map String.mk)

/-- Models `App::send_empty_launcher_item` (`main.rs`). -/
def emptyLauncherItem : PluginResponse :=
  PluginResponse.append 1 "Finish" "Launch this item to open all your URLs"

/-- Models the search pipeline in `App::search` (`main.rs`):
`cache.iter().filter(|(_, item)| item.contains(&query)).filter_map(|(trigger, _)| db.get(trigger)).take(max_limit)`. -/
def searchResults (cache : List (String × String)) (db : List Bang)
    (needle : List Char) (limit : Nat) : List Bang :=
  ((cache.filter (fun p => containsSub needle p.2.data)).filterMap
    (fun p => dbGet db p.1)).take limit

/-- Models `App::search` (`main.rs`): the updated application state together
with the emitted plugin responses, in emission order.  The sequential ids
produced by the incremented counter are modelled by `List.enumFrom 1`. -/
def searchStep (app : App) (query : String) : App × List PluginResponse :=
  match stripPfx PLUGIN_PREFIX.data query.data with
  | none => (app, [PluginResponse.finished])
  | some rest =>
    let toks := (splitWs rest).map String.mk
    let app1 := { app with search := toks }
    match stripPfx BANG_INDICATOR.data (toks.getLast?.getD "").data with
    | none => (app1, [emptyLauncherItem, PluginResponse.finished])
    | some q =>
      let lowered := q.map Char.toLower
      let matched := searchResults app1.cache app1.db lowered app1.config.max_limit
      let results := (List.enumFrom 1 matched).map (fun p => (p.1, p.2.trigger))
      let appends := (List.enumFrom 1 matched).map
        (fun p => PluginResponse.append p.1 (bangName p.2) (bangDescription p.2))
      if matched.length = 0 then
        ({ app1 with results := results }, [emptyLauncherItem, PluginResponse.finished])
      else
        ({ app1 with results := results }, appends ++ [PluginResponse.finished])

/-- Models `App::complete` (`main.rs`): on a known id whose trigger is in
the database, replace the last token by the closed bang token and emit a
`Fill`; otherwise do nothing. -/
def completeStep (app : App) (id : Nat) : App × List PluginResponse :=
  match app.results.lookup id with
  | none => (app, [])
  | some trigger =>
    match dbGet app.db trigger with
    | none => (app, [])
    | some bang =>
      let search := app.search.dropLast ++ [BANG_INDICATOR ++ bang.trigger]
      ({ app with search := search },
        [PluginResponse.fill (PLUGIN_PREFIX ++ " " ++ joinSpace search)])

/-- Models `App::activate` (`main.rs`): returns the URLs passed to
`xdg_open`, in dispatch order, together with the emitted responses.  The id
argument is ignored by the source (`_id`). -/
def activateStep (app : App) (_id : Nat) : List String × List PluginResponse :=
  let query := getSearchQuery app
  let encodedQuery := urlencode query
  let bangsFromQuery := getBangsFromSearchQuery app
  let bangs :=
    if bangsFromQuery.isEmpty then bangsFromQuery ++ app.config.default_bangs
    else bangsFromQuery
  let opens := bangs.filterMap (fun t =>
    (dbGet app.db t).map (fun b =>
      String.mk (replaceAll BANGS_PLACEHOLDER.data encodedQuery.data b.url.data)))
  (opens, [PluginResponse.close])

/-- The branch condition of `App::search` (`main.rs`) under which live
suggestions are produced and the result table is rebuilt: the raw query
carries the plugin prefix and the last token carries the bang indicator. -/
def suggestBranch (query : String) : Bool :=
  match stripPfx PLUGIN_PREFIX.data query.data with
  | none => false
  | some rest =>
    (stripPfx BANG_INDICATOR.data
      ((((splitWs rest).map String.mk).getLast?.getD "").data)).isSome

/-- Sample metadata for concrete inputs. -/
def sampleMeta : BangMetadata :=
  { netloc := "g.example", hostname := none, favicon := none,
    scheme := "https", path := "" }

/-- Sample bang with trigger `g`. -/
def gBang : Bang :=
  { trigger := "g", url := "https://g.example/?q=" ++ BANGS_PLACEHOLDER,
    metadata := sampleMeta, title := "Google", category := "Web",
    sub_category := "Search" }

/-- Sample bang with trigger `ddg` and a distinct URL. -/
def dBang : Bang :=
  { trigger := "ddg", url := "https://d.example/?q=" ++ BANGS_PLACEHOLDER,
    metadata := sampleMeta, title := "Duck", category := "Web",
    sub_category := "Search" }

/-- Sample bang with trigger `h` sharing the URL of `gBang` (a destination
duplicate). -/
def hBang : Bang :=
  { trigger := "h", url := "https://g.example/?q=" ++ BANGS_PLACEHOLDER,
    metadata := sampleMeta, title := "GClone", category := "Web",
    sub_category := "Search" }

/-- Sample configuration with the source defaults (`max_limit = 12`,
no default bangs, `unique_bangs = false`). -/
def sampleConfig : AppConfig :=
  { db_url := "", max_limit := 12, default_bangs := [], unique_bangs := false }

/-- Sample configuration with the dedup mode enabled. -/
def dedupConfig : AppConfig :=
  { sampleConfig with unique_bangs := true }

/-- Sample application state over a two-bang catalog. -/
def sampleApp : App := appInit sampleConfig [dBang, gBang]

/-- Sample application state carrying a result identifier issued by an
earlier search request. -/
def staleApp : App := { sampleApp with results := [(1, "ddg")] }

/-!
Verification.  General lemmas about the embedded operations, followed by
one theorem per specified property.
-/

theorem stripPfx_eq_none (p s : List Char) (h : p.isPrefixOf s = false) :
    stripPfx p s = none := by
  induction p generalizing s with
  | nil => simp [List.isPrefixOf] at h
  | cons c cs ih =>
    cases s with
    | nil => rfl
    | cons d ds =>
      simp only [List.isPrefixOf, Bool.and_eq_false_imp, beq_iff_eq] at h
      unfold stripPfx
      by_cases hd : c = d
      · subst hd
        rw [if_pos rfl]
        exact ih ds (h rfl)
      · rw [if_neg hd]

theorem mem_dedupAux {b : Bang} :
    ∀ (seen : List String) (l : List Bang), b ∈ dedupAux seen l →
      b ∈ l ∧ b.url ∉ seen := by
  intro seen l
  induction l generalizing seen with
  | nil => intro h; exact absurd h (by simp [dedupAux])
  | cons c cs ih =>
    intro h
    unfold dedupAux at h
    by_cases hc : c.url ∈ seen
    · rw [if_pos hc] at h
      obtain ⟨h1, h2⟩ := ih seen h
      exact ⟨List.mem_cons_of_mem c h1, h2⟩
    · rw [if_neg hc] at h
      rcases List.mem_cons.mp h with rfl | h
      · exact ⟨List.mem_cons_self b cs, hc⟩
      · obtain ⟨h1, h2⟩ := ih (c.url :: seen) h
        refine ⟨List.mem_cons_of_mem c h1, fun hs => h2 (List.mem_cons_of_mem _ hs)⟩

theorem dedupAux_pairwise :
    ∀ (seen : List String) (l : List Bang),
      (dedupAux seen l).Pairwise (fun a b => a.url ≠ b.url) := by
  intro seen l
  induction l generalizing seen with
  | nil => exact List.Pairwise.nil
  | cons c cs ih =>
    unfold dedupAux
    by_cases hc : c.url ∈ seen
    · rw [if_pos hc]; exact ih seen
    · rw [if_neg hc]
      refine List.Pairwise.cons ?_ (ih (c.url :: seen))
      intro b hb hurl
      have := (mem_dedupAux (c.url :: seen) cs hb).2
      exact this (hurl ▸ List.mem_cons_self c.url seen)

theorem dedupAux_first :
    ∀ (seen : List String) (l : List Bang) (b : Bang), b ∈ dedupAux seen l →
      l.find? (fun x => x.url == b.url) = some b := by
  intro seen l
  induction l generalizing seen with
  | nil => intro b h; exact absurd h (by simp [dedupAux])
  | cons c cs ih =>
    intro b h
    unfold dedupAux at h
    by_cases hc : c.url ∈ seen
    · rw [if_pos hc] at h
      have hb := (mem_dedupAux seen cs h).2
      have hne : ¬(c.url == b.url) = true := by
        simp only [beq_iff_eq]
        intro he
        exact hb (he ▸ hc)
      rw [List.find?_cons_of_neg (p := fun x => x.url == b.url) cs hne]
      exact ih seen b h
    · rw [if_neg hc] at h
      rcases List.mem_cons.mp h with rfl | h
      · exact List.find?_cons_of_pos (p := fun x => x.url == b.url) (a := b) cs (by simp)
      · have hb := (mem_dedupAux (c.url :: seen) cs h).2
        have hne : ¬(c.url == b.url) = true := by
          simp only [beq_iff_eq]
          intro he
          exact hb (he ▸ List.mem_cons_self c.url seen)
        rw [List.find?_cons_of_neg (p := fun x => x.url == b.url) cs hne]
        exact ih (c.url :: seen) b h

theorem dbGet_of_mem {db : List Bang} {b : Bang} (hb : b ∈ db) :
    ∃ x, dbGet db b.trigger = some x ∧ x.trigger = b.trigger := by
  have hs : (db.find? (fun x => x.trigger == b.trigger)).isSome :=
    List.find?_isSome.mpr ⟨b, hb, by simp⟩
  obtain ⟨x, hx⟩ := Option.isSome_iff_exists.mp hs
  refine ⟨x, hx, ?_⟩
  have := List.find?_some hx
  exact beq_iff_eq.mp this

/-- C10: a Search request whose raw query does not begin with the plugin
prefix leaves the whole state unchanged — the query tokens and the result
table as before — emits no result-append events, and emits exactly one
terminal Finished event. -/
theorem search_without_plugin_prefix_frame (app : App) (query : String)
    (h : PLUGIN_PREFIX.data.isPrefixOf query.data = false) :
    searchStep app query = (app, [PluginResponse.finished]) := by
  unfold searchStep
  rw [stripPfx_eq_none PLUGIN_PREFIX.data query.data h]

theorem search_without_plugin_prefix_frame_witness :
    PLUGIN_PREFIX.data.isPrefixOf "hello".data = false ∧
    searchStep sampleApp "hello" = (sampleApp, [PluginResponse.finished]) :=
  ⟨by decide, search_without_plugin_prefix_frame sampleApp "hello" (by decide)⟩

/-- C8: handling `Complete(id)` for an id absent from the current result
table is a no-op: the state (query tokens and result table) is unchanged and
no fill event is emitted. -/
theorem complete_unknown_id_noop (app : App) (id : Nat)
    (h : id ∉ app.results.map Prod.fst) :
    completeStep app id = (app, []) := by
  have hl : app.results.lookup id = none := by
    rw [List.lookup_eq_none_iff]
    intro p hp
    simp only [bne_iff_ne, ne_eq]
    intro he
    apply h
    rw [he]
    exact List.mem_map_of_mem Prod.fst hp
  unfold completeStep
  rw [hl]

theorem complete_unknown_id_noop_witness :
    2 ∉ staleApp.results.map Prod.fst ∧ completeStep staleApp 2 = (staleApp, []) :=
  ⟨by decide, complete_unknown_id_noop staleApp 2 (by decide)⟩

/-- C7: on every Activate event the shortcut-token triggers of the current
query are resolved by exact catalog lookup, falling back to the configured
default trigger list when no shortcut token is present; each resolved entry
has the URL-escaped free-text query substituted into its destination
template's placeholder and is dispatched, unresolved triggers are skipped,
and the close instruction is emitted in every case. -/
theorem activate_resolves_and_closes (app : App) (id : Nat) :
    (activateStep app id).2 = [PluginResponse.close] ∧
    (activateStep app id).1 =
      (if getBangsFromSearchQuery app = [] then app.config.default_bangs
        else getBangsFromSearchQuery app).filterMap
        (fun t => (dbGet app.db t).map (fun b =>
          String.mk (replaceAll BANGS_PLACEHOLDER.data
            (urlencode (getSearchQuery app)).data b.url.data))) := by
  refine ⟨rfl, ?_⟩
  unfold activateStep
  by_cases h : getBangsFromSearchQuery app = []
  · simp [h]
  · simp [h, List.isEmpty_iff]

/-- C5 counterexample: loading two identical records yields a catalog that
contains the same entry twice in adjacent positions, so the loaded catalog
is not ordered *strictly* descending — no assignment of relevance values with
any tie-break can strictly order two equal records, since a strictly
descending list has pairwise-distinct entries. -/
theorem catalog_order_not_strict :
    sortBangs [gBang, gBang] = [gBang, gBang] ∧
    ¬ (sortBangs [gBang, gBang]).Nodup := by
  constructor
  · decide
  · decide

/-- C5 amended: the loaded catalog is sorted descending (non-strictly) under
the record's derived lexicographic ordering (`trigger`, then `url`,
`metadata`, `title`, `category`, `sub_category` — the record has no separate
relevance field) and is a permutation of the raw input; the sort is a pure
function of the input, so repeated loads of the same raw input always
produce the same order. -/
theorem catalog_sorted_descending_perm (l : List Bang) :
    (sortBangs l).Sorted bangGe ∧ (sortBangs l).Perm l :=
  ⟨List.sorted_insertionSort bangGe l, List.perm_insertionSort bangGe l⟩

/-- C2: the source builds the search cache from the catalog *before* the
dedup pass shrinks the catalog (`App::default`, `main.rs`), so with dedup
enabled and two records sharing a destination URL the cache ends up with 2
entries while the catalog holds 1 — the equal-length, same-position
invariant fails on this input. -/
theorem cache_catalog_length_desync :
    (appInit dedupConfig [gBang, hBang]).cache.length = 2 ∧
    (appInit dedupConfig [gBang, hBang]).db.length = 1 := by
  constructor
  · decide
  · decide

/-- C6: with dedup mode enabled, the catalog entries have pairwise distinct
destination URLs after construction, and the entry kept for each URL is the
first encountered in ranked (sorted) order. -/
theorem dedup_unique_urls_first_kept (cfg : AppConfig) (raw : List Bang)
    (h : cfg.unique_bangs = true) :
    ((appInit cfg raw).db.Pairwise (fun a b => a.url ≠ b.url)) ∧
    (∀ b ∈ (appInit cfg raw).db,
      (sortBangs raw).find? (fun x => x.url == b.url) = some b) := by
  have hdb : (appInit cfg raw).db = dedupByUrl (sortBangs raw) := by
    simp [appInit, h]
  rw [hdb]
  exact ⟨dedupAux_pairwise [] _, fun b hb => dedupAux_first [] _ b hb⟩

theorem dedup_unique_urls_first_kept_witness :
    dedupConfig.unique_bangs = true ∧
    (((appInit dedupConfig [gBang, hBang]).db.Pairwise (fun a b => a.url ≠ b.url)) ∧
    (∀ b ∈ (appInit dedupConfig [gBang, hBang]).db,
      (sortBangs [gBang, hBang]).find? (fun x => x.url == b.url) = some b)) :=
  ⟨rfl, dedup_unique_urls_first_kept dedupConfig [gBang, hBang] rfl⟩

theorem containsSub_nil (hay : List Char) : containsSub [] hay = true := by
  cases hay <;> simp [containsSub, List.isPrefixOf]

theorem filterMap_dbGet_trigger (db : List Bang) :
    ∀ l : List Bang, (∀ b ∈ l, b ∈ db) →
      (l.filterMap (fun b => dbGet db b.trigger)).map Bang.trigger =
        l.map Bang.trigger := by
  intro l hl
  induction l with
  | nil => rfl
  | cons c cs ih =>
    obtain ⟨x, hx, hxt⟩ := dbGet_of_mem (hl c (List.mem_cons_self c cs))
    simp only [List.filterMap_cons, hx, List.map_cons, hxt]
    rw [ih (fun b hb => hl b (List.mem_cons_of_mem c hb))]

/-- The search pipeline over a cache generated from the catalog returns, in
order, exactly the triggers of the catalog entries whose searchable text
contains the needle, truncated at the limit. -/
theorem searchResults_map_trigger (db : List Bang) (needle : List Char)
    (limit : Nat) :
    (searchResults (mkCache db) db needle limit).map Bang.trigger =
      ((db.filter (fun b => containsSub needle (lowerStr (bangFormat b)).data)).map
        Bang.trigger).take limit := by
  unfold searchResults mkCache
  rw [List.filter_map, List.filterMap_map, List.map_take]
  congr 1
  exact filterMap_dbGet_trigger db _ (fun b hb => List.mem_of_mem_filter hb)

/-- C1: for a non-empty needle, the search over the index built from the
catalog returns exactly the triggers of the catalog entries whose searchable
text contains the needle as a contiguous substring, in stored rank order,
truncated once the configured limit of matches is collected — soundness,
completeness within the limit and rank order in one equation. -/
theorem search_sound_complete_ranked (db : List Bang) (needle : List Char)
    (limit : Nat) (hne : needle ≠ []) :
    (searchResults (mkCache db) db needle limit).map Bang.trigger =
      ((db.filter (fun b => containsSub needle (lowerStr (bangFormat b)).data)).map
        Bang.trigger).take limit :=
  searchResults_map_trigger db needle limit

theorem search_sound_complete_ranked_witness :
    "g".data ≠ [] ∧
    (searchResults (mkCache [gBang, dBang]) [gBang, dBang] "g".data 12).map Bang.trigger =
      (([gBang, dBang].filter
        (fun b => containsSub "g".data (lowerStr (bangFormat b)).data)).map
        Bang.trigger).take 12 :=
  ⟨by decide, search_sound_complete_ranked [gBang, dBang] "g".data 12 (by decide)⟩

/-- C4: the empty needle matches every entry, so searching with it returns
exactly `min limit (catalog size)` triggers, in catalog rank order. -/
theorem empty_needle_matches_all (db : List Bang) (limit : Nat) :
    (searchResults (mkCache db) db [] limit).map Bang.trigger =
      (db.map Bang.trigger).take limit ∧
    (searchResults (mkCache db) db [] limit).length = min limit db.length := by
  have h1 := searchResults_map_trigger db [] limit
  have hfilter :
      db.filter (fun b => containsSub [] (lowerStr (bangFormat b)).data) = db := by
    simp [containsSub_nil]
  rw [hfilter] at h1
  refine ⟨h1, ?_⟩
  have h2 : (searchResults (mkCache db) db [] limit).length
      = ((searchResults (mkCache db) db [] limit).map Bang.trigger).length := by
    rw [List.length_map]
  rw [h2, h1, List.length_take, List.length_map]

theorem searchStep_no_plugin_pfx (app : App) (query : String)
    (h : stripPfx PLUGIN_PREFIX.data query.data = none) :
    searchStep app query = (app, [PluginResponse.finished]) := by
  unfold searchStep
  rw [h]

theorem searchStep_last_token_not_bang (app : App) (query : String)
    (rest : List Char)
    (h1 : stripPfx PLUGIN_PREFIX.data query.data = some rest)
    (h2 : stripPfx BANG_INDICATOR.data
      ((((splitWs rest).map String.mk).getLast?.getD "").data) = none) :
    searchStep app query =
      ({ app with search := (splitWs rest).map String.mk },
        [emptyLauncherItem, PluginResponse.finished]) := by
  unfold searchStep
  rw [h1]
  simp only [h2]

theorem searchStep_suggest (app : App) (query : String) (rest q : List Char)
    (h1 : stripPfx PLUGIN_PREFIX.data query.data = some rest)
    (h2 : stripPfx BANG_INDICATOR.data
      ((((splitWs rest).map String.mk).getLast?.getD "").data) = some q) :
    searchStep app query =
      ({ app with
          search := (splitWs rest).map String.mk,
          results := (List.enumFrom 1
            (searchResults app.cache app.db (q.map Char.toLower)
              app.config.max_limit)).map (fun p => (p.1, p.2.trigger)) },
        if (searchResults app.cache app.db (q.map Char.toLower)
            app.config.max_limit).length = 0 then
          [emptyLauncherItem, PluginResponse.finished]
        else
          ((List.enumFrom 1
            (searchResults app.cache app.db (q.map Char.toLower)
              app.config.max_limit)).map
            (fun p => PluginResponse.append p.1 (bangName p.2) (bangDescription p.2)))
            ++ [PluginResponse.finished]) := by
  unfold searchStep
  rw [h1]
  simp only [h2]
  by_cases hm : (searchResults app.cache app.db (q.map Char.toLower)
      app.config.max_limit).length = 0
  · simp only [hm, if_true, if_pos rfl]
  · simp only [if_neg hm]

theorem map_fst_enumFrom_pairs (n : Nat) (l : List Bang) :
    ((List.enumFrom n l).map (fun p => (p.1, p.2.trigger))).map Prod.fst =
      List.range' n l.length := by
  induction l generalizing n with
  | nil => rfl
  | cons c cs ih =>
    simp only [List.enumFrom_cons, List.map_cons, List.length_cons,
      List.range'_succ]
    rw [ih (n + 1)]

/-- C3 counterexample: handling the Search request `"!g hello"` — prefixed
with the plugin prefix but whose final token is free text — leaves the
identifier `1`, which was issued by an earlier search request, in the result
table, so the table is not rebuilt from empty on this Search event. -/
theorem results_table_stale_id_persists :
    (searchStep staleApp "!g hello").1.results = [(1, "ddg")] ∧
    staleApp.results = [(1, "ddg")] := by
  constructor
  · decide
  · decide

/-- C3 amended: on a Search request that takes the suggestion branch (the
raw query carries the plugin prefix and its final token carries the bang
indicator) the result table is rebuilt from empty — its content does not
depend on the previous table, and its identifiers are exactly the
sequential ids 1..k assigned during this request; on any other Search
request the result table is left unchanged. -/
theorem results_table_rebuilt_in_suggest_branch (app : App) (query : String) :
    (suggestBranch query = true →
      (searchStep app query).1.results =
        (searchStep { app with results := [] } query).1.results ∧
      ((searchStep app query).1.results).map Prod.fst =
        List.range' 1 ((searchStep app query).1.results).length) ∧
    (suggestBranch query = false →
      (searchStep app query).1.results = app.results) := by
  constructor
  · intro hs
    unfold suggestBranch at hs
    cases e1 : stripPfx PLUGIN_PREFIX.data query.data with
    | none => rw [e1] at hs; exact absurd hs (by simp)
    | some rest =>
      simp only [e1] at hs
      cases e2 : stripPfx BANG_INDICATOR.data
          ((((splitWs rest).map String.mk).getLast?.getD "").data) with
      | none => rw [e2] at hs; exact absurd hs (by simp)
      | some q =>
        rw [searchStep_suggest app query rest q e1 e2,
          searchStep_suggest { app with results := [] } query rest q e1 e2]
        refine ⟨rfl, ?_⟩
        simp only [List.length_map, List.enumFrom_length]
        exact map_fst_enumFrom_pairs 1 _
  · intro hs
    unfold suggestBranch at hs
    cases e1 : stripPfx PLUGIN_PREFIX.data query.data with
    | none => rw [searchStep_no_plugin_pfx app query e1]
    | some rest =>
      simp only [e1] at hs
      cases e2 : stripPfx BANG_INDICATOR.data
          ((((splitWs rest).map String.mk).getLast?.getD "").data) with
      | none => rw [searchStep_last_token_not_bang app query rest e1 e2]
      | some q => rw [e2] at hs; exact absurd hs (by simp)

theorem results_table_rebuilt_in_suggest_branch_witness :
    suggestBranch "!!g" = true ∧
    ((searchStep staleApp "!!g").1.results =
      (searchStep { staleApp with results := [] } "!!g").1.results ∧
    ((searchStep staleApp "!!g").1.results).map Prod.fst =
      List.range' 1 ((searchStep staleApp "!!g").1.results).length) :=
  ⟨by decide, (results_table_rebuilt_in_suggest_branch staleApp "!!g").1 (by decide)⟩

theorem splitWsAux_cons_nonws (acc : List Char) (c : Char) (rest : List Char)
    (hc : rustWs c = false) :
    splitWsAux acc (c :: rest) = splitWsAux (c :: acc) rest := by
  simp [splitWsAux, hc]

theorem splitWsAux_cons_ws_nil (c : Char) (rest : List Char)
    (hc : rustWs c = true) :
    splitWsAux [] (c :: rest) = splitWsAux [] rest := by
  simp [splitWsAux, hc]

theorem splitWsAux_cons_ws (a : Char) (as : List Char) (c : Char)
    (rest : List Char) (hc : rustWs c = true) :
    splitWsAux (a :: as) (c :: rest) = (a :: as).reverse :: splitWsAux [] rest := by
  simp [splitWsAux, hc]

theorem splitWsAux_acc_nil (a : Char) (as : List Char) :
    splitWsAux (a :: as) [] = [(a :: as).reverse] := by
  simp [splitWsAux]

theorem splitWsAux_cons_ws_acc (l : List Char) (hl : l ≠ []) (c : Char)
    (rest : List Char) (hc : rustWs c = true) :
    splitWsAux l (c :: rest) = l.reverse :: splitWsAux [] rest := by
  cases l with
  | nil => exact absurd rfl hl
  | cons a as => exact splitWsAux_cons_ws a as c rest hc

/-- Every token produced by the tokenizer is non-empty and free of
whitespace characters. -/
theorem splitWsAux_tokens :
    ∀ (s acc : List Char), (∀ c ∈ acc, rustWs c = false) →
      ∀ t ∈ splitWsAux acc s, t ≠ [] ∧ ∀ c ∈ t, rustWs c = false := by
  intro s
  induction s with
  | nil =>
    intro acc hacc t ht
    cases acc with
    | nil => exact absurd ht (by simp [splitWsAux])
    | cons a as =>
      rw [splitWsAux_acc_nil] at ht
      have heq : t = (a :: as).reverse := by simpa using ht
      subst heq
      exact ⟨by simp, fun c hc => hacc c (List.mem_reverse.mp hc)⟩
  | cons c cs ih =>
    intro acc hacc t ht
    by_cases hw : rustWs c
    · cases acc with
      | nil =>
        rw [splitWsAux_cons_ws_nil c cs hw] at ht
        exact ih [] (by simp) t ht
      | cons a as =>
        rw [splitWsAux_cons_ws a as c cs hw] at ht
        rcases List.mem_cons.mp ht with rfl | ht
        · exact ⟨by simp, fun d hd => hacc d (List.mem_reverse.mp hd)⟩
        · exact ih [] (by simp) t ht
    · have hw' : rustWs c = false := by simpa using hw
      rw [splitWsAux_cons_nonws acc c cs hw'] at ht
      refine ih (c :: acc) ?_ t ht
      intro d hd
      rcases List.mem_cons.mp hd with rfl | hd
      · exact hw'
      · exact hacc d hd

/-- Scanning a whitespace-free chunk just accumulates it. -/
theorem splitWsAux_nonws (t : List Char) (h : ∀ c ∈ t, rustWs c = false) :
    ∀ acc l, splitWsAux acc (t ++ l) = splitWsAux (t.reverse ++ acc) l := by
  induction t with
  | nil => intro acc l; simp
  | cons c cs ih =>
    intro acc l
    have hc : rustWs c = false := h c (List.mem_cons_self c cs)
    show splitWsAux acc (c :: (cs ++ l)) = _
    rw [splitWsAux_cons_nonws acc c (cs ++ l) hc]
    rw [ih (fun d hd => h d (List.mem_cons_of_mem c hd)) (c :: acc) l]
    congr 1
    simp

/-- Splitting the space-joined image of a list of non-empty whitespace-free
tokens recovers the tokens. -/
theorem splitWs_join (ts : List (List Char))
    (h : ∀ t ∈ ts, t ≠ [] ∧ ∀ c ∈ t, rustWs c = false) :
    splitWs (joinSpace (ts.map String.mk)).data = ts := by
  induction ts with
  | nil => rfl
  | cons t rest ih =>
    cases rest with
    | nil =>
      obtain ⟨hne, hnw⟩ := h t (List.mem_cons_self t [])
      show splitWs t = [t]
      unfold splitWs
      have hstep := splitWsAux_nonws t hnw [] []
      rw [List.append_nil, List.append_nil] at hstep
      rw [hstep]
      cases ht : t.reverse with
      | nil => exact absurd (by simpa using ht) hne
      | cons b bs =>
        rw [splitWsAux_acc_nil b bs, ← ht, List.reverse_reverse]
    | cons t2 rest2 =>
      obtain ⟨hne, hnw⟩ := h t (List.mem_cons_self t (t2 :: rest2))
      have hrest : ∀ u ∈ t2 :: rest2, u ≠ [] ∧ ∀ c ∈ u, rustWs c = false :=
        fun u hu => h u (List.mem_cons_of_mem t hu)
      show splitWs (String.mk t ++ " " ++
        joinSpace ((t2 :: rest2).map String.mk)).data = t :: t2 :: rest2
      have hdata : (String.mk t ++ " " ++
          joinSpace ((t2 :: rest2).map String.mk)).data =
          t ++ (' ' :: (joinSpace ((t2 :: rest2).map String.mk)).data) := by
        simp
      rw [hdata]
      unfold splitWs
      rw [splitWsAux_nonws t hnw [] _, List.append_nil]
      rw [splitWsAux_cons_ws_acc t.reverse (by simpa using hne) ' ' _ (by decide)]
      rw [List.reverse_reverse]
      congr 1
      exact ih hrest

/-- C9: the token sequence of a raw query, joined by single spaces and
re-parsed, yields the same token sequence — tokenization reconstructs the
raw input modulo whitespace normalization. -/
theorem tokenization_idempotent (raw : String) :
    parseTokens (joinSpace (parseTokens raw)) = parseTokens raw := by
  unfold parseTokens
  rw [splitWs_join (splitWs raw.data)
    (fun t ht => splitWsAux_tokens raw.data [] (by simp) t ht)]

end Bangs
